import Mathlib

/-
Verification development for the FinSight-AI annual-report processing core.
Python strings are modelled as lists of characters (`Str`); the functions
below are shallow embeddings of the corresponding methods in
`backend/annual_report_processor/{text_processor,pdf_parser,processor}.py`.
Whitespace, digit, and letter character classes are modelled over ASCII,
which covers every keyword, pattern, and input the development uses.
-/

set_option autoImplicit false

namespace FinSight

/-- Python strings, modelled as lists of characters. -/
abbrev Str := List Char

def nlChar : Char := Char.ofNat 10

def spChar : Char := Char.ofNat 32

def tabChar : Char := Char.ofNat 9

def crChar : Char := Char.ofNat 13

def vtChar : Char := Char.ofNat 11

def ffChar : Char := Char.ofNat 12

def aposChar : Char := Char.ofNat 39

/-- The regex class `\s` (ASCII): space, tab, newline, carriage return,
vertical tab, form feed.  Also Python `str.strip` / `str.split` whitespace. -/
def isSpaceP (c : Char) : Bool :=
  c == spChar || c == tabChar || c == nlChar || c == crChar || c == vtChar || c == ffChar

def isDigitC (c : Char) : Bool := '0' ≤ c && c ≤ '9'

def isUpperC (c : Char) : Bool := 'A' ≤ c && c ≤ 'Z'

def isLowerC (c : Char) : Bool := 'a' ≤ c && c ≤ 'z'

/-- The regex class `\w` (ASCII): letters, digits, underscore. -/
def isWordChar (c : Char) : Bool := isUpperC c || isLowerC c || isDigitC c || c == '_'

/-- Python `str.lower`, per ASCII character. -/
def lowerC (c : Char) : Char := if isUpperC c then Char.ofNat (c.toNat + 32) else c

/-- Python `str.upper`, per ASCII character. -/
def upperC (c : Char) : Char := if isLowerC c then Char.ofNat (c.toNat - 32) else c

def lowerStr (s : Str) : Str := s.map lowerC

def upperStr (s : Str) : Str := s.map upperC

/-- Drop a trailing run of whitespace (the right half of Python `str.strip`). -/
def stripTrail : Str → Str
  | [] => []
  | c :: rest =>
    let r := stripTrail rest
    if r = [] ∧ isSpaceP c then [] else c :: r

/-- Python `str.strip()`: remove leading and trailing whitespace. -/
def pyStrip (s : Str) : Str := stripTrail (s.dropWhile (fun c => isSpaceP c))

/-- Helper for Python `str.split()`: `acc` holds the (reversed) current word. -/
def wordsAux : Str → Str → List Str
  | [], acc => if acc = [] then [] else [acc.reverse]
  | c :: rest, acc =>
    if isSpaceP c then
      if acc = [] then wordsAux rest [] else acc.reverse :: wordsAux rest []
    else wordsAux rest (c :: acc)

/-- Python `str.split()`: split on whitespace runs, discarding empty pieces. -/
def wordsOf (s : Str) : List Str := wordsAux s []

/-- Python `sep.join(pieces)` for a one-character separator. -/
def joinSep (sep : Char) : List Str → Str
  | [] => []
  | [w] => w
  | w :: ws => w ++ sep :: joinSep sep ws

/-- Helper for Python `str.split(sep)` with a one-character separator
(empty pieces kept). -/
def splitOnCharAux (sep : Char) : Str → Str → List Str
  | [], acc => [acc.reverse]
  | c :: rest, acc =>
    if c = sep then acc.reverse :: splitOnCharAux sep rest []
    else splitOnCharAux sep rest (c :: acc)

def splitOnChar (sep : Char) (s : Str) : List Str := splitOnCharAux sep s []

/-- `text.split('\n')` as used by `PDFParser.find_sections`. -/
def splitOnNl (s : Str) : List Str := splitOnChar nlChar s

/-- `TextProcessor.estimate_tokens`: `len(text) // self.chars_per_token`
with `chars_per_token = 4`. -/
def estimateTokens (s : Str) : Nat := s.length / 4

/-- Lookbehind `(?<=[.!?])` on the reversed current piece: its head is the
character immediately before the scan position. -/
def lastIsSentPunct : Str → Bool
  | p :: _ => p == '.' || p == '!' || p == '?'
  | [] => false

/-- Helper for `re.split(r'(?<=[.!?])\s+', text)`.  `acc` holds the
(reversed) current piece, `inGap` records being inside a whitespace run
that followed a sentence-ending punctuation mark. -/
def sentSplitAux : Str → Str → Bool → List Str
  | [], acc, _ => [acc.reverse]
  | c :: rest, acc, inGap =>
    if inGap then
      if isSpaceP c then sentSplitAux rest acc true
      else sentSplitAux rest [c] false
    else if isSpaceP c && lastIsSentPunct acc then
      acc.reverse :: sentSplitAux rest [] true
    else sentSplitAux rest (c :: acc) false

/-- `TextProcessor._split_into_sentences`: regex split after `.`/`!`/`?`
followed by whitespace, then strip each piece and drop empty pieces. -/
def splitIntoSentences (text : Str) : List Str :=
  ((sentSplitAux text [] false).map pyStrip).filter (fun s => s ≠ [])

/-- `TextProcessor._get_overlap_text`: `" ".join(text.split()[-overlap_tokens//4:])`.
By Python precedence the slice start is `(-overlap_tokens)//4`, a floor
division of a negative number, so the window is the last
`ceil(overlap_tokens/4) = (overlap_tokens+3)/4` words; when
`overlap_tokens = 0` the slice start is `0` and the whole word list is
taken.  `words[-k:]` with `k ≥ 1` yields the last `min k (length words)`
words. -/
def getOverlapText (overlapTokens : Nat) (text : Str) : Str :=
  let ws := wordsOf text
  let k := (overlapTokens + 3) / 4
  joinSep spChar (if k = 0 then ws else ws.drop (ws.length - k))

/-- The `TextChunk` dataclass.  `metadata` holds only the key
`sentence_count`; `chunk_id` is modelled by the numeric suffix of the
Python id string `f"{section_type}_{chunk_id}"`. -/
structure TextChunk where
  text : Str
  chunkId : Nat
  sectionType : Str
  startPos : Nat
  endPos : Nat
  tokenCount : Nat
  sentenceCount : Nat
  deriving DecidableEq

/-- Builds the `TextChunk` record exactly as `chunk_text` does from the raw
buffer `cur`: text is stripped, positions/token count come from the
unstripped buffer, `sentence_count = len(current_chunk.split('.'))`. -/
def mkChunk (st : Str) (cur : Str) (cs : Nat) (id : Nat) : TextChunk :=
  { text := pyStrip cur
    chunkId := id
    sectionType := st
    startPos := cs
    endPos := cs + cur.length
    tokenCount := estimateTokens cur
    sentenceCount := (splitOnChar '.' cur).length }

/-- The sentence loop of `TextProcessor.chunk_text`.  State: remaining
sentences, `cur` = `current_chunk`, `cs` = `current_start`, `id` = `chunk_id`. -/
def chunkAux (mct ot : Nat) (st : Str) : List Str → Str → Nat → Nat → List TextChunk
  | [], cur, cs, id => if pyStrip cur ≠ [] then [mkChunk st cur cs id] else []
  | s :: rest, cur, cs, id =>
    let test := if cur ≠ [] then cur ++ spChar :: s else s
    if estimateTokens test > mct ∧ cur ≠ [] then
      let ov := getOverlapText ot cur
      let newCur := ov ++ spChar :: s
      mkChunk st cur cs id :: chunkAux mct ot st rest newCur (cs + newCur.length - ov.length) (id + 1)
    else chunkAux mct ot st rest test cs id

/-- `TextProcessor.chunk_text(text, section_type)` with the processor's
budgets `mct = max_chunk_tokens`, `ot = overlap_tokens`. -/
def chunkText (mct ot : Nat) (st : Str) (text : Str) : List TextChunk :=
  chunkAux mct ot st (splitIntoSentences text) [] 0 0

/-- `(l.takeWhile p).length`: length of the maximal prefix satisfying `p`. -/
def countWhile (p : Char → Bool) (l : Str) : Nat := (l.takeWhile p).length

/-- `kw` is a prefix of `s` (Boolean). -/
def hasPrefixB : Str → Str → Bool
  | [], _ => true
  | _ :: _, [] => false
  | k :: kr, c :: cr => k == c && hasPrefixB kr cr

/-- Python's substring test `kw in s`. -/
def containsSubstr (s kw : Str) : Bool :=
  hasPrefixB kw s ||
    match s with
    | [] => false
    | _ :: rest => containsSubstr rest kw

/-- `PDFParser.__init__`'s `section_keywords` table, in declaration order. -/
def financialStatementsKws : List Str :=
  [("financial statements").toList, ("consolidated financial statements").toList,
   ("standalone financial statements").toList, ("balance sheet").toList,
   ("profit and loss").toList, ("cash flow statement").toList,
   ("notes to accounts").toList]

def managementDiscussionKws : List Str :=
  [("management discussion and analysis").toList, ("mda").toList,
   ("directors").toList ++ [aposChar] ++ (" report").toList,
   ("management commentary").toList, ("ceo message").toList,
   ("chairman").toList ++ [aposChar] ++ ("s statement").toList]

def riskFactorsKws : List Str :=
  [("risk factors").toList, ("risk management").toList,
   ("risks and concerns").toList, ("business risks").toList,
   ("operational risks").toList]

def esgKws : List Str :=
  [("environmental").toList, ("social").toList, ("governance").toList,
   ("esg").toList, ("sustainability").toList,
   ("corporate social responsibility").toList, ("csr").toList]

def businessOverviewKws : List Str :=
  [("business overview").toList, ("company overview").toList,
   ("about us").toList, ("business model").toList,
   ("operational review").toList]

def corporateGovernanceKws : List Str :=
  [("corporate governance").toList, ("board of directors").toList,
   ("board report").toList, ("governance report").toList]

/-- The six section types with their keyword lists, in the dictionary's
insertion order. -/
def sectionKeywordsTable : List (Str × List Str) :=
  [(("financial_statements").toList, financialStatementsKws),
   (("management_discussion").toList, managementDiscussionKws),
   (("risk_factors").toList, riskFactorsKws),
   (("esg").toList, esgKws),
   (("business_overview").toList, businessOverviewKws),
   (("corporate_governance").toList, corporateGovernanceKws)]

/-- `re.match(r'^\d+\.\s+[A-Z]', line)`: digits, a dot, whitespace, then an
upper-case letter (prefix match, remainder unconstrained). -/
def matchNumberedHeading (l : Str) : Bool :=
  let n1 := countWhile isDigitC l
  if n1 = 0 then false
  else
    match l.drop n1 with
    | c :: t =>
      if c = '.' then
        let w := countWhile isSpaceP t
        if w = 0 then false
        else
          match t.drop w with
          | d :: _ => isUpperC d
          | [] => false
      else false
    | [] => false

/-- `re.match(r'^[A-Z][A-Z\s]{3,}$', line)`: an upper-case letter followed by
at least three characters that are upper-case or whitespace, to the end. -/
def matchAllCapsHeading : Str → Bool
  | [] => false
  | c :: rest => isUpperC c && decide (3 ≤ rest.length) && rest.all (fun d => isUpperC d || isSpaceP d)

/-- Deterministic automaton for `re.match(r'^[A-Z][a-z]+(?:\s+[A-Z][a-z]+)*$', line)`.
States: 0 expects the leading upper-case letter, 1 expects the first
lower-case letter of a word, 2 is inside a word's lower-case run
(accepting), 3 is inside an inter-word whitespace run.  The character
classes are disjoint, so the automaton decides the regex. -/
def titleDFA : Str → Nat → Bool
  | [], st => st == 2
  | c :: rest, st =>
    if st = 0 then (if isUpperC c then titleDFA rest 1 else false)
    else if st = 1 then (if isLowerC c then titleDFA rest 2 else false)
    else if st = 2 then
      (if isLowerC c then titleDFA rest 2
       else if isSpaceP c then titleDFA rest 3 else false)
    else
      (if isSpaceP c then titleDFA rest 3
       else if isUpperC c then titleDFA rest 1 else false)

def matchTitleCaseHeading (l : Str) : Bool := titleDFA l 0

/-- The three `heading_patterns` of `PDFParser._find_section_end`. -/
def isHeading (l : Str) : Bool :=
  matchNumberedHeading l || matchAllCapsHeading l || matchTitleCaseHeading l

/-- The scan loop of `_find_section_end` over the enumerated lines after
`start`: skip blank lines, return on a heading, return on a non-blank line
whose index exceeds `start + 50`, else fall through to the default. -/
def fseAux (start : Nat) : List (Nat × Str) → Nat → Nat
  | [], dflt => dflt
  | (n, line) :: rest, dflt =>
    let l := pyStrip line
    if l = [] then fseAux start rest dflt
    else if isHeading l then n
    else if n > start + 50 then n
    else fseAux start rest dflt

/-- `PDFParser._find_section_end(lines, start_line)`. -/
def findSectionEnd (lines : List Str) (start : Nat) : Nat :=
  fseAux start ((lines.enum).drop (start + 1)) lines.length

/-- The inner keyword loop of `find_sections` for one line and one section
type: the first matching keyword appends one record and breaks. -/
def scanKeywords (lines : List Str) (n : Nat) (lineLower : Str) : List Str → List (Nat × Nat × Str)
  | [] => []
  | kw :: rest =>
    if containsSubstr lineLower kw then
      [(n, findSectionEnd lines n,
        joinSep nlChar ((lines.drop n).take (findSectionEnd lines n - n)))]
    else scanKeywords lines n lineLower rest

/-- `PDFParser.find_sections` restricted to one section type's keyword list
(the per-type record lists are computed independently, in line order). -/
def findSectionsFor (lines : List Str) (kws : List Str) : List (Nat × Nat × Str) :=
  (lines.enum).foldl (fun acc p => acc ++ scanKeywords lines p.1 (pyStrip (lowerStr p.2)) kws) []

/-- `PDFParser.find_sections(text)`: the map from each section type to its
record list. -/
def findSectionsAll (text : Str) : List (Str × List (Nat × Nat × Str)) :=
  sectionKeywordsTable.map (fun p => (p.1, findSectionsFor (splitOnNl text) p.2))

/-- `re.sub(r'\s+', ' ', text)`: replace each maximal whitespace run by one
space.  `inRun` records being inside a run already replaced. -/
def collapseAux : Str → Bool → Str
  | [], _ => []
  | c :: rest, inRun =>
    if isSpaceP c then
      if inRun then collapseAux rest true else spChar :: collapseAux rest true
    else c :: collapseAux rest false

def collapseWS (s : Str) : Str := collapseAux s false

/-- Leftmost-scan engine for `re.sub(pattern, '', text)` where the pattern
always consumes at least one character.  `m prev s` returns the length of
the (deterministic) match of the pattern at the start of `s`, given the
character `prev` immediately before the position; a pending match is
consumed one character at a time through the skip counter `k`, which keeps
the previous character correct for the word-boundary checks. -/
def subDelAux (m : Option Char → Str → Option Nat) : Option Char → Nat → Str → Str
  | _, _, [] => []
  | _, Nat.succ k, c :: rest => subDelAux m (some c) k rest
  | prev, 0, c :: rest =>
    match m prev (c :: rest) with
    | some (Nat.succ k) => subDelAux m (some c) k rest
    | _ => c :: subDelAux m (some c) 0 rest

def subDelete (m : Option Char → Str → Option Nat) (s : Str) : Str :=
  subDelAux m none 0 s

/-- No word boundary is needed after `prev` when `prev` is absent or not a
word character (the first matched character is always a digit or letter). -/
def boundaryBefore (prev : Option Char) : Bool :=
  match prev with
  | none => true
  | some p => !isWordChar p

/-- Word boundary after a digit: the next character is absent or not a word
character. -/
def boundaryAfter : Str → Bool
  | [] => true
  | c :: _ => !isWordChar c

/-- Match of `r'\b\d+\s*of\s*\d+\b'` at the start of `s` (greedy; the
character classes are disjoint so no backtracking arises). -/
def matchXofY (prev : Option Char) (s : Str) : Option Nat :=
  if !boundaryBefore prev then none
  else
    let n1 := countWhile isDigitC s
    if n1 = 0 then none
    else
      let t1 := s.drop n1
      let w1 := countWhile isSpaceP t1
      match t1.drop w1 with
      | 'o' :: 'f' :: t2 =>
        let w2 := countWhile isSpaceP t2
        let t3 := t2.drop w2
        let n2 := countWhile isDigitC t3
        if n2 = 0 then none
        else if boundaryAfter (t3.drop n2) then some (n1 + w1 + 2 + w2 + n2)
        else none
      | _ => none

/-- Match of `r'\bPage\s+\d+\b'` at the start of `s`. -/
def matchPageNum (prev : Option Char) (s : Str) : Option Nat :=
  if !boundaryBefore prev then none
  else
    match s with
    | 'P' :: 'a' :: 'g' :: 'e' :: t1 =>
      let w := countWhile isSpaceP t1
      if w = 0 then none
      else
        let t2 := t1.drop w
        let n := countWhile isDigitC t2
        if n = 0 then none
        else if boundaryAfter (t2.drop n) then some (4 + w + n)
        else none
    | _ => none

def euroChar : Char := Char.ofNat 8364

def rupeeChar : Char := Char.ofNat 8377

/-- The allow-list `[\w\s\.\,\;\:\!\?\-\(\)\[\]\{\}\%\$\€\₹]` of
`clean_text`'s artifact-removal substitution. -/
def allowedChar (c : Char) : Bool :=
  isWordChar c || isSpaceP c ||
  c == '.' || c == ',' || c == ';' || c == ':' || c == '!' || c == '?' ||
  c == '-' || c == '(' || c == ')' || c == '[' || c == ']' ||
  c == Char.ofNat 123 || c == Char.ofNat 125 ||
  c == '%' || c == '$' || c == euroChar || c == rupeeChar

/-- `PDFParser.clean_text`: collapse whitespace, delete "X of Y" and
"Page N" artifacts, strip disallowed characters, strip the ends. -/
def cleanText (text : Str) : Str :=
  pyStrip (List.filter allowedChar
    (subDelete matchPageNum (subDelete matchXofY (collapseWS text))))

/-- The `section_keywords` table of
`TextProcessor._identify_relevant_sections`, in declaration order. -/
def queryKeywordsTable : List (Str × List Str) :=
  [(("financial_statements").toList,
    [("revenue").toList, ("profit").toList, ("financial").toList,
     ("earnings").toList, ("performance").toList, ("growth").toList]),
   (("management_discussion").toList,
    [("management").toList, ("strategy").toList, ("outlook").toList,
     ("future").toList, ("plans").toList, ("commentary").toList]),
   (("risk_factors").toList,
    [("risk").toList, ("challenge").toList, ("uncertainty").toList,
     ("threat").toList, ("concern").toList]),
   (("esg").toList,
    [("environmental").toList, ("social").toList, ("governance").toList,
     ("sustainability").toList, ("csr").toList, ("esg").toList]),
   (("business_overview").toList,
    [("business").toList, ("operations").toList, ("market").toList,
     ("industry").toList, ("overview").toList]),
   (("corporate_governance").toList,
    [("governance").toList, ("board").toList, ("directors").toList,
     ("compliance").toList])]

def mdKey : Str := ("management_discussion").toList

/-- The `section_scores` construction: each table entry with a positive
count of keywords occurring in the lowered query, in table order. -/
def scoredSections (q : Str) : List (Str × Nat) :=
  queryKeywordsTable.filterMap (fun p =>
    let sc := (p.2.filter (fun kw => containsSubstr (lowerStr q) kw)).length
    if sc > 0 then some (p.1, sc) else none)

/-- Stable insertion of `x` into a list already sorted by descending score:
`x` goes after every element with a strictly greater score and before the
first element whose score is `≤`, preserving original order among equal
scores — the behavior of Python's stable
`sorted(..., key=lambda x: x[1], reverse=True)`. -/
def insertByScore (x : Str × Nat) : List (Str × Nat) → List (Str × Nat)
  | [] => [x]
  | y :: ys => if y.2 > x.2 then y :: insertByScore x ys else x :: y :: ys

def sortByScoreDesc : List (Str × Nat) → List (Str × Nat)
  | [] => []
  | x :: xs => insertByScore x (sortByScoreDesc xs)

/-- First-match association lookup (Python `dict` access / `in` test on the
ordered key set). -/
def alookup {α : Type} (k : Str) : List (Str × α) → Option α
  | [] => none
  | p :: rest => if p.1 = k then some p.2 else alookup k rest

/-- `TextProcessor._identify_relevant_sections(query, section_chunks)`:
score the types, stable-sort descending, keep the top 3 that are present
in the chunk map, then append `management_discussion` when present and not
already selected. -/
def identifyRelevantSections (q : Str) (cm : List (Str × List TextChunk)) :
    List (Str × List TextChunk) :=
  let top := (sortByScoreDesc (scoredSections q)).take 3
  let base := top.foldl (fun acc p =>
    match alookup p.1 cm with
    | some chunks => acc ++ [(p.1, chunks)]
    | none => acc) []
  match alookup mdKey cm with
  | some chunks => if (alookup mdKey base).isNone then base ++ [(mdKey, chunks)] else base
  | none => base

/-- The `financial_data` dictionary: optional `revenue`, `net_profit`,
`eps` strings. -/
structure FinData where
  revenue : Option Str
  netProfit : Option Str
  eps : Option Str
  deriving DecidableEq

/-- Python truthiness of the `financial_data` dict. -/
def finNonempty (f : FinData) : Bool :=
  f.revenue.isSome || f.netProfit.isSome || f.eps.isSome

/-- `TextProcessor._format_financial_data`. -/
def formatFinancialData (f : FinData) : Str :=
  if !finNonempty f then ("No financial data extracted.").toList
  else
    joinSep nlChar
      ((match f.revenue with
        | some v => [("Revenue: ").toList ++ [rupeeChar] ++ v]
        | none => []) ++
       (match f.netProfit with
        | some v => [("Net Profit: ").toList ++ [rupeeChar] ++ v]
        | none => []) ++
       (match f.eps with
        | some v => [("EPS: ").toList ++ [rupeeChar] ++ v]
        | none => []))

/-- `TextProcessor.extract_key_sections(parsed_data)`: chunk each non-empty
section list, labelling section `i` of type `t` as `f"{t}_{i}"`. -/
def extractKeySections (mct ot : Nat)
    (sections : List (Str × List (Nat × Nat × Str))) : List (Str × List TextChunk) :=
  sections.foldl (fun acc p =>
    if p.2 = [] then acc
    else acc ++ [(p.1,
      ((p.2.enum).map (fun q =>
        chunkText mct ot (p.1 ++ '_' :: Nat.toDigits 10 q.1) q.2.2.2)).flatten)]) []

/-- The context part `f"\n{section_type.upper()}:\n{chunk.text}"`. -/
def fmtChunkPart (t : Str) (c : TextChunk) : Str :=
  [nlChar] ++ upperStr t ++ (":").toList ++ [nlChar] ++ c.text

/-- The inner chunk loop of `create_context_for_llm` for one section type:
append formatted chunks while they fit; `break` on the first chunk whose
token estimate would push the running total over the budget, discarding
the rest of this type's list. -/
def addChunks (maxCtx : Nat) (t : Str) : List TextChunk → List Str × Nat → List Str × Nat
  | [], st => st
  | c :: rest, (parts, cur) =>
    if cur + c.tokenCount > maxCtx then (parts, cur)
    else addChunks maxCtx t rest (parts ++ [fmtChunkPart t c], cur + c.tokenCount)

/-- The input aggregate of `create_context_for_llm` (`parsed_data`), with
the fields it reads. -/
structure ParsedInput where
  sections : List (Str × List (Nat × Nat × Str))
  financialData : FinData
  deriving DecidableEq

/-- `TextProcessor.create_context_for_llm(parsed_data, query, max_context_tokens)`
with the processor's chunking budgets `mct`, `ot`. -/
def createContextForLLM (mct ot : Nat) (pd : ParsedInput) (q : Str) (maxCtx : Nat) : Str :=
  let sc := extractKeySections mct ot pd.sections
  let rel := identifyRelevantSections q sc
  let init : List Str × Nat :=
    if finNonempty pd.financialData then
      ([("FINANCIAL SUMMARY:").toList ++ [nlChar] ++ formatFinancialData pd.financialData],
       estimateTokens (formatFinancialData pd.financialData))
    else ([], 0)
  let result := rel.foldl (fun st p => addChunks maxCtx p.1 p.2 st) init
  joinSep nlChar result.1

/-- A document source on disk: absent, present but not decodable by the PDF
library (`fitz.open`/page decoding raises), or decodable with a list of
page texts. -/
inductive PdfFile
  | missing
  | unopenable
  | doc (pages : List Str)
  deriving DecidableEq

/-- Error outcomes of `process_annual_report`.  `extractFailure` stands for
the exception re-raised by `extract_text_from_pdf`'s `except` block (there
is no dedicated `ExtractionError` class in the code). -/
inductive ProcErr
  | fileNotFound
  | extractFailure
  deriving DecidableEq

/-- `PDFParser.extract_text_from_pdf`: concatenate the page texts, a newline
after each page; any library failure is logged and re-raised. -/
def extractTextFromPdf : PdfFile → Except ProcErr Str
  | .doc pages => .ok (pages.foldl (fun acc p => acc ++ p ++ [nlChar]) [])
  | _ => .error .extractFailure

/-- The parse aggregate of `PDFParser.parse_annual_report` (the fields the
cache/error claims depend on; the regex-based financial-metric extraction
and file-name bookkeeping are not modelled). -/
structure ParsedReport where
  totalTextLength : Nat
  sections : List (Str × List (Nat × Nat × Str))
  fullText : Str
  deriving DecidableEq

def parseReport (raw : Str) : ParsedReport :=
  let ct := cleanText raw
  { totalTextLength := ct.length
    sections := findSectionsAll ct
    fullText := ct }

/-- The processed aggregate built by `process_annual_report` (`parsed_data`,
`section_chunks`, `total_chunks`). -/
structure ProcessedData where
  parsedData : ParsedReport
  sectionChunks : List (Str × List TextChunk)
  totalChunks : Nat
  deriving DecidableEq

/-- Steps 1-3 of `process_annual_report` on the extracted text, with the
default `TextProcessor()` budgets (1000, 100). -/
def mkProcessedData (raw : Str) : ProcessedData :=
  let pr := parseReport raw
  let sc := extractKeySections 1000 100 pr.sections
  { parsedData := pr
    sectionChunks := sc
    totalChunks := (sc.map (fun p => p.2.length)).sum }

/-- The on-disk cache entry for one document: a deserializable processed
aggregate, or a file `json.load` fails on. -/
inductive CacheEntry
  | good (v : ProcessedData)
  | corrupt
  deriving DecidableEq

/-- `AnnualReportProcessor.process_annual_report(pdf_path, force_reprocess)`
for one document: the existence check, the cache-hit branch (a corrupt
entry is logged and falls through), the parse (whose failure propagates
with the cache file untouched), and the cache write.  Returns the result
and the cache state after the call. -/
def processAnnualReport (file : PdfFile) (cached : Option CacheEntry) (force : Bool) :
    Except ProcErr ProcessedData × Option CacheEntry :=
  match file with
  | .missing => (.error .fileNotFound, cached)
  | _ =>
    let hit : Option ProcessedData :=
      if force then none
      else
        match cached with
        | some (.good v) => some v
        | _ => none
    match hit with
    | some v => (.ok v, cached)
    | none =>
      match extractTextFromPdf file with
      | .error e => (.error e, cached)
      | .ok raw =>
        let pd := mkProcessedData raw
        (.ok pd, some (.good pd))

/-- A buffer that was sealed (or flushed) before any sentence was
successfully appended to it: either a single sentence of the input, or the
overlap window of some previous buffer followed by the sentence that
triggered that buffer's seal.  Such buffers are the only way a chunk can
exceed the token budget. -/
def SeedOf (sents : List Str) (ot : Nat) (raw : Str) : Prop :=
  raw ∈ sents ∨ ∃ prev s, s ∈ sents ∧ raw = getOverlapText ot prev ++ spChar :: s

/-- The overlap-window relation between consecutive chunks: the last
`min k (word count of a)` whitespace-separated words of chunk `a`'s text
reappear, in order, as the leading words of chunk `b`'s text. -/
def tailHeadShare (k : Nat) (a b : TextChunk) : Prop :=
  (wordsOf b.text).take (min k (wordsOf a.text).length) =
    (wordsOf a.text).drop ((wordsOf a.text).length - min k (wordsOf a.text).length)

/-- The return condition of `_find_section_end`'s scan at an enumerated
line: non-blank, and a heading or more than 50 lines past the start. -/
def sectionEndHit (start : Nat) (p : Nat × Str) : Bool :=
  !(pyStrip p.2).isEmpty && (isHeading (pyStrip p.2) || decide (p.1 > start + 50))

/-- The per-line match condition of `find_sections` for one section type:
some keyword of the type occurs in the lowered, stripped line. -/
def lineHit (kws : List Str) (p : Nat × Str) : Bool :=
  kws.any (fun kw => containsSubstr (pyStrip (lowerStr p.2)) kw)

/-- The record `find_sections` appends for a matched line `n`. -/
def sectionRecordAt (lines : List Str) (n : Nat) : Nat × Nat × Str :=
  (n, findSectionEnd lines n,
    joinSep nlChar ((lines.drop n).take (findSectionEnd lines n - n)))


/-- A decidable instance for the overlap-window relation (it is an equality
of word lists). -/
instance (k : Nat) (a b : TextChunk) : Decidable (tailHeadShare k a b) := by
  unfold tailHeadShare
  infer_instance

/-- The single chunk produced from the one-sentence text `"hi."` with
budgets (3, 8) and label `"g"`. -/
def exChunkHi : TextChunk := ⟨("hi.").toList, 0, ("g").toList, 0, 3, 0, 2⟩

/-- A placeholder chunk used as chunk-map content in ranking examples. -/
def dummyChunk : TextChunk := ⟨("x").toList, 0, ("t").toList, 0, 1, 0, 1⟩

/-- A chunk map containing `financial_statements`, `esg` and
`business_overview` but not `risk_factors` or `management_discussion`. -/
def cmC5 : List (Str × List TextChunk) :=
  [(("financial_statements").toList, [dummyChunk]),
   (("esg").toList, [dummyChunk]),
   (("business_overview").toList, [dummyChunk])]

/-- Parsed input whose `financial_statements` section chunks to one
28-character chunk (7 estimated tokens) and whose `risk_factors` section
chunks to one 3-character chunk (0 estimated tokens). -/
def pdC2 : ParsedInput :=
  { sections :=
      [(("financial_statements").toList, [(0, 1, ("aaaaaaaaaaaaaaaaaaaaaaaaaaa.").toList)]),
       (("risk_factors").toList, [(0, 1, ("ab.").toList)])],
    financialData := ⟨none, none, none⟩ }

/-- A section text whose first sealed chunk is long (end offset 43) while
the flushed final chunk is short (end offset 11). -/
def c8Text : Str := ("aaaaaaaaaaaaaaaaaaaaaaaaaaaaaaaaaaaaaaaa b. z. y.").toList

/-! ### Lemmas about `str.split()` (`wordsOf`) -/

theorem wordsAux_append_space (b : Str) : ∀ (a acc : Str),
    wordsAux (a ++ spChar :: b) acc = wordsAux a acc ++ wordsAux b [] := by
  intro a
  induction a with
  | nil =>
    intro acc
    have hsp : isSpaceP spChar = true := by decide
    by_cases h : acc = [] <;> simp [wordsAux, hsp, h]
  | cons c a ih =>
    intro acc
    by_cases hc : isSpaceP c
    · by_cases h : acc = [] <;> simp [wordsAux, hc, h, ih]
    · simp [wordsAux, hc, ih]

theorem wordsAux_spaces (t : Str) (ht : ∀ c ∈ t, isSpaceP c = true) :
    ∀ acc, wordsAux t acc = if acc = [] then [] else [acc.reverse] := by
  induction t with
  | nil => intro acc; rfl
  | cons c t ih =>
    intro acc
    have hc : isSpaceP c = true := ht c (List.mem_cons_self c t)
    have ht' : ∀ d ∈ t, isSpaceP d = true := fun d hd => ht d (List.mem_cons_of_mem c hd)
    have h0 : wordsAux t [] = [] := by simp [ih ht']
    by_cases h : acc = [] <;> simp [wordsAux, hc, h, h0]

theorem wordsAux_append_spaces (t : Str) (ht : ∀ c ∈ t, isSpaceP c = true) :
    ∀ (a acc : Str), wordsAux (a ++ t) acc = wordsAux a acc := by
  intro a
  induction a with
  | nil =>
    intro acc
    simpa [wordsAux] using wordsAux_spaces t ht acc
  | cons c a ih =>
    intro acc
    by_cases hc : isSpaceP c
    · by_cases h : acc = [] <;> simp [wordsAux, hc, h, ih]
    · simp [wordsAux, hc, ih]

theorem wordsAux_nospace (w : Str) (hw : ∀ c ∈ w, isSpaceP c = false) :
    ∀ acc, wordsAux w acc = if acc.reverse ++ w = [] then [] else [acc.reverse ++ w] := by
  induction w with
  | nil => intro acc; by_cases h : acc = [] <;> simp [wordsAux, h]
  | cons c w ih =>
    intro acc
    have hc : isSpaceP c = false := hw c (List.mem_cons_self c w)
    have hw' : ∀ d ∈ w, isSpaceP d = false := fun d hd => hw d (List.mem_cons_of_mem c hd)
    simp [wordsAux, hc, ih hw']

theorem wordsAux_elems : ∀ (s acc : Str), (∀ c ∈ acc, isSpaceP c = false) →
    ∀ w ∈ wordsAux s acc, w ≠ [] ∧ ∀ c ∈ w, isSpaceP c = false := by
  intro s
  induction s with
  | nil =>
    intro acc hacc w hw
    by_cases h : acc = []
    · simp [wordsAux, h] at hw
    · simp [wordsAux, h] at hw
      subst hw
      refine ⟨by simpa using h, ?_⟩
      intro c hc
      exact hacc c (List.mem_reverse.mp hc)
  | cons c s ih =>
    intro acc hacc w hw
    by_cases hc : isSpaceP c
    · by_cases h : acc = []
      · simp [wordsAux, hc, h] at hw
        exact ih [] (by simp) w hw
      · simp [wordsAux, hc, h] at hw
        rcases hw with hw | hw
        · subst hw
          refine ⟨by simpa using h, ?_⟩
          intro d hd
          exact hacc d (List.mem_reverse.mp hd)
        · exact ih [] (by simp) w hw
    · simp [wordsAux, hc] at hw
      refine ih (c :: acc) ?_ w hw
      intro d hd
      rcases List.mem_cons.mp hd with hd | hd
      · subst hd; simpa using hc
      · exact hacc d hd

theorem wordsOf_elems (s : Str) : ∀ w ∈ wordsOf s, w ≠ [] ∧ ∀ c ∈ w, isSpaceP c = false :=
  wordsAux_elems s [] (by simp)

theorem wordsOf_append_space (a b : Str) :
    wordsOf (a ++ spChar :: b) = wordsOf a ++ wordsOf b :=
  wordsAux_append_space b a []

theorem wordsOf_joinSep : ∀ (ws : List Str),
    (∀ w ∈ ws, w ≠ [] ∧ ∀ c ∈ w, isSpaceP c = false) →
    wordsOf (joinSep spChar ws) = ws := by
  intro ws
  induction ws with
  | nil => intro _; rfl
  | cons w ws ih =>
    intro h
    obtain ⟨hw, hwc⟩ := h w (List.mem_cons_self w ws)
    cases ws with
    | nil =>
      show wordsOf w = [w]
      rw [wordsOf, wordsAux_nospace w hwc]
      simp [hw]
    | cons w' ws' =>
      have hj : joinSep spChar (w :: w' :: ws') = w ++ spChar :: joinSep spChar (w' :: ws') := rfl
      rw [hj, wordsOf_append_space]
      have hw1 : wordsOf w = [w] := by
        rw [wordsOf, wordsAux_nospace w hwc]; simp [hw]
      rw [hw1, ih (fun u hu => h u (List.mem_cons_of_mem w hu))]
      rfl

theorem stripTrail_decomp : ∀ (s : Str),
    ∃ t, s = stripTrail s ++ t ∧ ∀ c ∈ t, isSpaceP c = true := by
  intro s
  induction s with
  | nil => exact ⟨[], rfl, by simp⟩
  | cons c s ih =>
    obtain ⟨t, hs, ht⟩ := ih
    by_cases h : stripTrail s = [] ∧ isSpaceP c
    · have hst : stripTrail (c :: s) = [] := by
        show (if stripTrail s = [] ∧ isSpaceP c then [] else c :: stripTrail s) = []
        rw [if_pos h]
      refine ⟨c :: t, ?_, ?_⟩
      · rw [hst, List.nil_append]
        conv_lhs => rw [hs, h.1, List.nil_append]
      · intro d hd
        rcases List.mem_cons.mp hd with hd | hd
        · subst hd; exact h.2
        · exact ht d hd
    · have hst : stripTrail (c :: s) = c :: stripTrail s := by
        show (if stripTrail s = [] ∧ isSpaceP c then [] else c :: stripTrail s) = _
        rw [if_neg h]
      refine ⟨t, ?_, ht⟩
      rw [hst, List.cons_append, ← hs]

theorem wordsOf_stripTrail (s : Str) : wordsOf (stripTrail s) = wordsOf s := by
  obtain ⟨t, hs, ht⟩ := stripTrail_decomp s
  conv_rhs => rw [hs]
  exact (wordsAux_append_spaces t ht (stripTrail s) []).symm

theorem wordsAux_dropWhile (s : Str) :
    wordsAux (s.dropWhile (fun c => isSpaceP c)) [] = wordsAux s [] := by
  induction s with
  | nil => rfl
  | cons c s ih =>
    by_cases hc : isSpaceP c
    · rw [List.dropWhile_cons_of_pos (by simpa using hc)]
      rw [ih]
      simp [wordsAux, hc]
    · rw [List.dropWhile_cons_of_neg (by simpa using hc)]

theorem wordsOf_pyStrip (s : Str) : wordsOf (pyStrip s) = wordsOf s := by
  rw [pyStrip, wordsOf_stripTrail]
  exact wordsAux_dropWhile s

/-! ### Lemmas about `chunk_text` -/

theorem mkChunk_text (st cur : Str) (cs id : Nat) :
    (mkChunk st cur cs id).text = pyStrip cur := rfl

theorem mkChunk_tokenCount (st cur : Str) (cs id : Nat) :
    (mkChunk st cur cs id).tokenCount = estimateTokens cur := rfl

theorem mkChunk_startPos (st cur : Str) (cs id : Nat) :
    (mkChunk st cur cs id).startPos = cs := rfl

theorem chunkAux_nil (mct ot : Nat) (st cur : Str) (cs id : Nat) :
    chunkAux mct ot st [] cur cs id =
      if pyStrip cur ≠ [] then [mkChunk st cur cs id] else [] := rfl

theorem chunkAux_cons (mct ot : Nat) (st : Str) (s : Str) (rest : List Str)
    (cur : Str) (cs id : Nat) :
    chunkAux mct ot st (s :: rest) cur cs id =
      if estimateTokens (if cur ≠ [] then cur ++ spChar :: s else s) > mct ∧ cur ≠ [] then
        mkChunk st cur cs id ::
          chunkAux mct ot st rest (getOverlapText ot cur ++ spChar :: s)
            (cs + (getOverlapText ot cur ++ spChar :: s).length - (getOverlapText ot cur).length)
            (id + 1)
      else chunkAux mct ot st rest (if cur ≠ [] then cur ++ spChar :: s else s) cs id := rfl

theorem chunkAux_token_bound (mct ot : Nat) (st : Str) (sents0 : List Str) :
    ∀ (sents : List Str) (cur : Str) (cs id : Nat),
      (cur = [] ∨ estimateTokens cur ≤ mct ∨ SeedOf sents0 ot cur) →
      (∀ s ∈ sents, s ∈ sents0) →
      ∀ ch ∈ chunkAux mct ot st sents cur cs id,
        ch.tokenCount ≤ mct ∨
          ∃ raw, ch.text = pyStrip raw ∧ ch.tokenCount = estimateTokens raw ∧
            SeedOf sents0 ot raw := by
  intro sents
  induction sents with
  | nil =>
    intro cur cs id hcur _ ch hch
    rw [chunkAux_nil] at hch
    by_cases h : pyStrip cur ≠ []
    · rw [if_pos h] at hch
      have hc : ch = mkChunk st cur cs id := by simpa using hch
      subst hc
      rcases hcur with hcur | hcur | hcur
      · exact absurd (by rw [hcur]; rfl) h
      · exact Or.inl hcur
      · exact Or.inr ⟨cur, rfl, rfl, hcur⟩
    · rw [if_neg h] at hch
      simp at hch
  | cons s rest ih =>
    intro cur cs id hcur hsub ch hch
    rw [chunkAux_cons] at hch
    by_cases hseal : estimateTokens (if cur ≠ [] then cur ++ spChar :: s else s) > mct ∧ cur ≠ []
    · rw [if_pos hseal] at hch
      rcases List.mem_cons.mp hch with hc | hc
      · subst hc
        rcases hcur with hcur | hcur | hcur
        · exact absurd hcur hseal.2
        · exact Or.inl hcur
        · exact Or.inr ⟨cur, rfl, rfl, hcur⟩
      · refine ih _ _ _ ?_ (fun u hu => hsub u (List.mem_cons_of_mem s hu)) ch hc
        exact Or.inr (Or.inr (Or.inr ⟨cur, s, hsub s (List.mem_cons_self s rest), rfl⟩))
    · rw [if_neg hseal] at hch
      refine ih _ _ _ ?_ (fun u hu => hsub u (List.mem_cons_of_mem s hu)) ch hch
      by_cases hc : cur = []
      · rw [if_neg (by simpa using hc)]
        exact Or.inr (Or.inr (Or.inl (hsub s (List.mem_cons_self s rest))))
      · rw [if_pos hc]
        have : ¬ estimateTokens (cur ++ spChar :: s) > mct := by
          intro hgt
          exact hseal ⟨by rwa [if_pos hc], hc⟩
        exact Or.inr (Or.inl (Nat.le_of_not_lt this))

theorem chunkAux_start_lb (mct ot : Nat) (st : Str) :
    ∀ (sents : List Str) (cur : Str) (cs id : Nat),
      ∀ ch ∈ chunkAux mct ot st sents cur cs id, cs ≤ ch.startPos := by
  intro sents
  induction sents with
  | nil =>
    intro cur cs id ch hch
    rw [chunkAux_nil] at hch
    by_cases h : pyStrip cur ≠ []
    · rw [if_pos h] at hch
      have hc : ch = mkChunk st cur cs id := by simpa using hch
      subst hc
      exact Nat.le_refl cs
    · rw [if_neg h] at hch
      simp at hch
  | cons s rest ih =>
    intro cur cs id ch hch
    rw [chunkAux_cons] at hch
    by_cases hseal : estimateTokens (if cur ≠ [] then cur ++ spChar :: s else s) > mct ∧ cur ≠ []
    · rw [if_pos hseal] at hch
      rcases List.mem_cons.mp hch with hc | hc
      · subst hc; exact Nat.le_refl cs
      · have hlen : (getOverlapText ot cur ++ spChar :: s).length =
            (getOverlapText ot cur).length + (s.length + 1) := by
          simp
        have := ih _ _ _ ch hc
        omega
    · rw [if_neg hseal] at hch
      exact ih _ _ _ ch hch

theorem chunkAux_start_pairwise (mct ot : Nat) (st : Str) :
    ∀ (sents : List Str) (cur : Str) (cs id : Nat),
      List.Pairwise (fun a b => a.startPos < b.startPos)
        (chunkAux mct ot st sents cur cs id) := by
  intro sents
  induction sents with
  | nil =>
    intro cur cs id
    rw [chunkAux_nil]
    by_cases h : pyStrip cur ≠ []
    · rw [if_pos h]; exact List.pairwise_singleton _ _
    · rw [if_neg h]; exact List.Pairwise.nil
  | cons s rest ih =>
    intro cur cs id
    rw [chunkAux_cons]
    by_cases hseal : estimateTokens (if cur ≠ [] then cur ++ spChar :: s else s) > mct ∧ cur ≠ []
    · rw [if_pos hseal]
      refine List.pairwise_cons.mpr ⟨?_, ih _ _ _⟩
      intro b hb
      have hlb := chunkAux_start_lb mct ot st rest _ _ _ b hb
      have hlen : (getOverlapText ot cur ++ spChar :: s).length =
          (getOverlapText ot cur).length + (s.length + 1) := by
        simp
      rw [mkChunk_startPos]
      omega
    · rw [if_neg hseal]
      exact ih _ _ _

theorem wordsOf_getOverlapText (ot : Nat) (cur : Str) :
    wordsOf (getOverlapText ot cur) =
      if (ot + 3) / 4 = 0 then wordsOf cur
      else (wordsOf cur).drop ((wordsOf cur).length - (ot + 3) / 4) := by
  by_cases h : (ot + 3) / 4 = 0
  · rw [if_pos h]
    show wordsOf (joinSep spChar (if (ot + 3) / 4 = 0 then wordsOf cur
      else (wordsOf cur).drop ((wordsOf cur).length - (ot + 3) / 4))) = wordsOf cur
    rw [if_pos h]
    exact wordsOf_joinSep (wordsOf cur) (wordsOf_elems cur)
  · rw [if_neg h]
    show wordsOf (joinSep spChar (if (ot + 3) / 4 = 0 then wordsOf cur
      else (wordsOf cur).drop ((wordsOf cur).length - (ot + 3) / 4))) = _
    rw [if_neg h]
    refine wordsOf_joinSep _ ?_
    intro w hw
    exact wordsOf_elems cur w (List.drop_subset _ _ hw)

theorem chunkAux_overlap_chain (mct ot : Nat) (st : Str) :
    ∀ (sents : List Str) (cur : Str) (cs id : Nat),
      List.Chain' (tailHeadShare ((ot + 3) / 4)) (chunkAux mct ot st sents cur cs id) ∧
      ∀ c, (chunkAux mct ot st sents cur cs id).head? = some c →
        ∃ ext, wordsOf c.text = wordsOf cur ++ ext := by
  intro sents
  induction sents with
  | nil =>
    intro cur cs id
    rw [chunkAux_nil]
    by_cases h : pyStrip cur ≠ []
    · rw [if_pos h]
      refine ⟨List.chain'_singleton _, ?_⟩
      intro c hc
      have hc' : c = mkChunk st cur cs id := by
        have := hc
        simp at this
        exact this.symm
      subst hc'
      exact ⟨[], by rw [mkChunk_text, wordsOf_pyStrip, List.append_nil]⟩
    · rw [if_neg h]
      exact ⟨List.chain'_nil, fun c hc => by simp at hc⟩
  | cons s rest ih =>
    intro cur cs id
    rw [chunkAux_cons]
    by_cases hseal : estimateTokens (if cur ≠ [] then cur ++ spChar :: s else s) > mct ∧ cur ≠ []
    · rw [if_pos hseal]
      obtain ⟨hchain, hhead⟩ := ih (getOverlapText ot cur ++ spChar :: s)
        (cs + (getOverlapText ot cur ++ spChar :: s).length - (getOverlapText ot cur).length)
        (id + 1)
      constructor
      · refine List.chain'_cons'.mpr ⟨?_, hchain⟩
        intro b hb
        obtain ⟨ext, hb'⟩ := hhead b (Option.mem_def.mp hb)
        rw [wordsOf_append_space] at hb'
        show (wordsOf b.text).take
            (min ((ot + 3) / 4) (wordsOf (mkChunk st cur cs id).text).length) =
          (wordsOf (mkChunk st cur cs id).text).drop
            ((wordsOf (mkChunk st cur cs id).text).length -
              min ((ot + 3) / 4) (wordsOf (mkChunk st cur cs id).text).length)
        rw [mkChunk_text, wordsOf_pyStrip]
        by_cases hk : (ot + 3) / 4 = 0
        · simp [hk]
        · have hov : wordsOf (getOverlapText ot cur) =
              (wordsOf cur).drop ((wordsOf cur).length - (ot + 3) / 4) := by
            rw [wordsOf_getOverlapText, if_neg hk]
          have hlen : (wordsOf (getOverlapText ot cur)).length =
              min ((ot + 3) / 4) (wordsOf cur).length := by
            rw [hov, List.length_drop]
            omega
          rw [hb', List.append_assoc, ← hlen, List.take_left, hov, List.length_drop]
          congr 1
          omega
      · intro c hc
        have hc' : c = mkChunk st cur cs id := by
          have := hc
          simp at this
          exact this.symm
        subst hc'
        exact ⟨[], by rw [mkChunk_text, wordsOf_pyStrip, List.append_nil]⟩
    · rw [if_neg hseal]
      obtain ⟨hchain, hhead⟩ := ih (if cur ≠ [] then cur ++ spChar :: s else s) cs id
      refine ⟨hchain, ?_⟩
      intro c hc
      obtain ⟨ext, hc'⟩ := hhead c hc
      by_cases hcur : cur = []
      · rw [if_neg (by simpa using hcur)] at hc'
        exact ⟨wordsOf s ++ ext, by rw [hc', hcur]; rfl⟩
      · rw [if_pos hcur, wordsOf_append_space] at hc'
        exact ⟨wordsOf s ++ ext, by rw [hc', List.append_assoc]⟩


/-! ### Lemmas about `find_sections` and `_find_section_end` -/

theorem scanKeywords_eq (lines : List Str) (n : Nat) (l : Str) : ∀ (kws : List Str),
    scanKeywords lines n l kws =
      if kws.any (fun kw => containsSubstr l kw) then [sectionRecordAt lines n] else [] := by
  intro kws
  induction kws with
  | nil => rfl
  | cons kw rest ih =>
    show (if containsSubstr l kw then [sectionRecordAt lines n]
        else scanKeywords lines n l rest) = _
    by_cases h : containsSubstr l kw
    · rw [if_pos h]
      simp [List.any_cons, h]
    · rw [if_neg h, ih]
      simp [List.any_cons, h]

theorem findSectionsFor_foldl (lines : List Str) (kws : List Str) :
    ∀ (l : List (Nat × Str)) (acc : List (Nat × Nat × Str)),
      l.foldl (fun acc p => acc ++ scanKeywords lines p.1 (pyStrip (lowerStr p.2)) kws) acc =
        acc ++ (l.filter (lineHit kws)).map (fun p => sectionRecordAt lines p.1) := by
  intro l
  induction l with
  | nil => intro acc; simp
  | cons p l ih =>
    intro acc
    rw [List.foldl_cons, ih, scanKeywords_eq]
    by_cases h : lineHit kws p
    · have h' : (kws.any fun kw => containsSubstr (pyStrip (lowerStr p.2)) kw) = true := h
      rw [if_pos h']
      simp [List.filter_cons, h]
    · have h' : (kws.any fun kw => containsSubstr (pyStrip (lowerStr p.2)) kw) = false := by
        simpa [lineHit] using h
      rw [h']
      simp [List.filter_cons, h]

theorem fseAux_eq (start : Nat) : ∀ (l : List (Nat × Str)) (dflt : Nat),
    fseAux start l dflt = ((l.find? (sectionEndHit start)).map Prod.fst).getD dflt := by
  intro l
  induction l with
  | nil => intro dflt; rfl
  | cons p l ih =>
    intro dflt
    obtain ⟨n, line⟩ := p
    show (if pyStrip line = [] then fseAux start l dflt
      else if isHeading (pyStrip line) then n
      else if n > start + 50 then n
      else fseAux start l dflt) = _
    by_cases h1 : pyStrip line = []
    · have hhit : sectionEndHit start (n, line) = false := by
        simp [sectionEndHit, h1]
      rw [if_pos h1, List.find?_cons_of_neg _ (by simp [hhit]), ih]
    · by_cases h2 : isHeading (pyStrip line)
      · have hhit : sectionEndHit start (n, line) = true := by
          simp [sectionEndHit, List.isEmpty_iff, h1, h2]
        rw [if_neg h1, if_pos h2, List.find?_cons_of_pos _ hhit]
        rfl
      · by_cases h3 : n > start + 50
        · have hhit : sectionEndHit start (n, line) = true := by
            simp [sectionEndHit, List.isEmpty_iff, h1, h3]
          rw [if_neg h1, if_neg h2, if_pos h3, List.find?_cons_of_pos _ hhit]
          rfl
        · have hhit : sectionEndHit start (n, line) = false := by
            simp [sectionEndHit, List.isEmpty_iff, h1, h2, h3]
          rw [if_neg h1, if_neg h2, if_neg h3, List.find?_cons_of_neg _ (by simp [hhit]), ih]

/-! ### Lemmas about `_identify_relevant_sections` -/

theorem idrs_foldl (cm : List (Str × List TextChunk)) :
    ∀ (l : List (Str × Nat)) (acc : List (Str × List TextChunk)),
      l.foldl (fun acc p =>
          match alookup p.1 cm with
          | some chunks => acc ++ [(p.1, chunks)]
          | none => acc) acc =
        acc ++ (l.filter (fun p => (alookup p.1 cm).isSome)).map
          (fun p => (p.1, (alookup p.1 cm).getD [])) := by
  intro l
  induction l with
  | nil => intro acc; simp
  | cons p l ih =>
    intro acc
    rw [List.foldl_cons]
    cases halo : alookup p.1 cm with
    | none => simp only [halo]; rw [ih]; simp [List.filter_cons, halo]
    | some chunks => simp only [halo]; rw [ih]; simp [List.filter_cons, halo]

theorem alookup_map_eq_none {α : Type} (g : Str → α) :
    ∀ (ks : List Str) (t : Str),
      (alookup t (ks.map (fun k => (k, g k))) = none) ↔ t ∉ ks := by
  intro ks
  induction ks with
  | nil => intro t; simp [alookup]
  | cons k ks ih =>
    intro t
    show (if k = t then some (g k) else alookup t (ks.map (fun k => (k, g k)))) = none ↔ _
    by_cases h : k = t
    · subst h; simp
    · rw [if_neg h, ih]
      simp [List.mem_cons]
      intro hk
      exact fun hke => h hke.symm

/-! ### Lemmas about `clean_text` membership -/

theorem mem_collapseAux : ∀ (s : Str) (b : Bool) (c : Char),
    c ∈ collapseAux s b → c = spChar ∨ (c ∈ s ∧ isSpaceP c = false) := by
  intro s
  induction s with
  | nil => intro b c h; simp [collapseAux] at h
  | cons d s ih =>
    intro b c h
    by_cases hd : isSpaceP d
    · by_cases hb : b
      · simp only [collapseAux, hd, hb, if_pos, if_true] at h
        rcases ih true c h with h' | h'
        · exact Or.inl h'
        · exact Or.inr ⟨List.mem_cons_of_mem d h'.1, h'.2⟩
      · simp only [collapseAux, hd, hb, if_true, if_false] at h
        rcases List.mem_cons.mp h with h' | h'
        · exact Or.inl h'
        · rcases ih true c h' with h'' | h''
          · exact Or.inl h''
          · exact Or.inr ⟨List.mem_cons_of_mem d h''.1, h''.2⟩
    · simp only [collapseAux, hd, if_false] at h
      rcases List.mem_cons.mp h with h' | h'
      · subst h'
        exact Or.inr ⟨List.mem_cons_self c s, by simpa using hd⟩
      · rcases ih false c h' with h'' | h''
        · exact Or.inl h''
        · exact Or.inr ⟨List.mem_cons_of_mem d h''.1, h''.2⟩

theorem mem_subDelAux (m : Option Char → Str → Option Nat) :
    ∀ (s : Str) (prev : Option Char) (k : Nat) (c : Char),
      c ∈ subDelAux m prev k s → c ∈ s := by
  intro s
  induction s with
  | nil => intro prev k c h; simp [subDelAux] at h
  | cons d s ih =>
    intro prev k c h
    cases k with
    | succ j =>
      simp only [subDelAux] at h
      exact List.mem_cons_of_mem d (ih (some d) j c h)
    | zero =>
      simp only [subDelAux] at h
      cases hm : m prev (d :: s) with
      | none =>
        rw [hm] at h
        rcases List.mem_cons.mp h with h' | h'
        · subst h'; exact List.mem_cons_self c s
        · exact List.mem_cons_of_mem d (ih (some d) 0 c h')
      | some j =>
        rw [hm] at h
        cases j with
        | zero =>
          rcases List.mem_cons.mp h with h' | h'
          · subst h'; exact List.mem_cons_self c s
          · exact List.mem_cons_of_mem d (ih (some d) 0 c h')
        | succ j' =>
          exact List.mem_cons_of_mem d (ih (some d) j' c h)

theorem mem_stripTrail (s : Str) (c : Char) (h : c ∈ stripTrail s) : c ∈ s := by
  obtain ⟨t, hs, _⟩ := stripTrail_decomp s
  rw [hs]
  exact List.mem_append_left t h

theorem mem_pyStrip (s : Str) (c : Char) (h : c ∈ pyStrip s) : c ∈ s :=
  (List.dropWhile_sublist _).subset (mem_stripTrail _ c h)

theorem splitOnCharAux_no_sep (sep : Char) :
    ∀ (s acc : Str), (∀ c ∈ s, c ≠ sep) →
      splitOnCharAux sep s acc = [acc.reverse ++ s] := by
  intro s
  induction s with
  | nil => intro acc _; simp [splitOnCharAux]
  | cons c s ih =>
    intro acc h
    have hc : ¬ c = sep := h c (List.mem_cons_self c s)
    show (if c = sep then acc.reverse :: splitOnCharAux sep s []
      else splitOnCharAux sep s (c :: acc)) = _
    rw [if_neg hc, ih (c :: acc) (fun d hd => h d (List.mem_cons_of_mem c hd))]
    simp



theorem cleanText_no_nl (raw : Str) : nlChar ∉ cleanText raw := by
  intro h
  have h1 := mem_pyStrip _ _ h
  have h2 := (List.mem_filter.mp h1).1
  have h3 := mem_subDelAux matchPageNum _ none 0 nlChar h2
  have h4 := mem_subDelAux matchXofY _ none 0 nlChar h3
  have h5 := mem_collapseAux raw false nlChar h4
  rcases h5 with h5 | h5
  · exact absurd h5 (by decide)
  · exact absurd h5.2 (by decide)



/-! ### Claim theorems -/

/-- Claim C1 (corrected).  Every chunk produced by `chunk_text` has
`token_count ≤ max_chunk_tokens`, except chunks whose buffer was emitted
before any sentence was successfully appended to it: such a buffer is
either a single input sentence, or a previous buffer's overlap window
followed by the sentence that triggered that buffer's seal (and may exceed
the budget even when no single sentence alone does).  No oversized flag is
recorded; chunk metadata holds only a sentence count. -/
theorem c1_chunk_token_bound (text : Str) (mct ot : Nat) (st : Str) :
    ∀ ch ∈ chunkText mct ot st text,
      ch.tokenCount ≤ mct ∨
        ∃ raw, ch.text = pyStrip raw ∧ ch.tokenCount = estimateTokens raw ∧
          SeedOf (splitIntoSentences text) ot raw :=
  chunkAux_token_bound mct ot st (splitIntoSentences text) (splitIntoSentences text)
    [] 0 0 (Or.inl rfl) (fun _ hs => hs)

/-- Witness for C1 at the one-sentence text `"hi."` with budgets (3, 8). -/
theorem c1_chunk_token_bound_witness :
    exChunkHi.tokenCount ≤ 3 ∨
      ∃ raw, exChunkHi.text = pyStrip raw ∧ exChunkHi.tokenCount = estimateTokens raw ∧
        SeedOf (splitIntoSentences (("hi.").toList)) 8 raw :=
  c1_chunk_token_bound (("hi.").toList) 3 8 (("g").toList) exChunkHi (by decide)

/-- Counterexample to C1 as stated: with budgets (3, 8), every sentence of
the text estimates within the budget, yet `chunk_text` produces a chunk
estimating 5 tokens — the claim's only exception (a single sentence alone
exceeding the budget) does not apply. -/
theorem c1_counterexample :
    (∀ s ∈ splitIntoSentences (("aaaa bbbb. cccccccccc. dd.").toList),
      estimateTokens s ≤ 3) ∧
    ∃ ch ∈ chunkText 3 8 (("g").toList) (("aaaa bbbb. cccccccccc. dd.").toList),
      3 < ch.tokenCount := by
  decide

/-- Claim C3 (corrected).  For each line and each section type,
`find_sections` appends exactly one record when at least one keyword of
that type occurs in the lowered, stripped line (the keyword loop breaks
after its first hit), not one record per (type, keyword) pair; records of
different types over overlapping lines are all kept independently. -/
theorem c3_one_record_per_matched_line (lines : List Str) (kws : List Str) :
    findSectionsFor lines kws =
      ((lines.enum).filter (lineHit kws)).map (fun p => sectionRecordAt lines p.1) := by
  rw [findSectionsFor]
  simpa using findSectionsFor_foldl lines kws (lines.enum) []

/-- Counterexample to C3 as stated: the line contains two distinct
`risk_factors` keywords, but `find_sections` appends a single record for
the type, not two. -/
theorem c3_counterexample :
    ((riskFactorsKws.filter (fun kw =>
        containsSubstr (pyStrip (lowerStr (("risk factors and risk management").toList))) kw)).length
      = 2) ∧
    (findSectionsFor (splitOnNl (("risk factors and risk management").toList))
      riskFactorsKws).length = 1 := by
  decide

/-- Claim C4 (corrected).  `_find_section_end` returns the index of the
first line after `start` that is non-blank after stripping and either
matches one of the three heading patterns or lies more than 50 lines past
`start` (so the earliest cap return is `start + 51`, and blank lines can
push the return further), falling back to the number of lines when no such
line exists. -/
theorem c4_section_end_characterization (lines : List Str) (start : Nat) :
    findSectionEnd lines start =
      (((((lines.enum).drop (start + 1)).find? (sectionEndHit start)).map Prod.fst).getD
        lines.length) :=
  fseAux_eq start ((lines.enum).drop (start + 1)) lines.length

/-- Counterexample to C4 as stated: on 53 non-blank, non-heading lines the
scan returns 51, more than 50 lines past the start while the text has not
ended — the claimed hard cap `start + 50` is never a return value. -/
theorem c4_counterexample :
    findSectionEnd (List.replicate 53 (("zz").toList)) 0 = 51 ∧ 0 + 50 < 51 ∧
      51 < (List.replicate 53 (("zz").toList)).length := by
  decide

/-- Claim C6 (corrected).  A source that cannot be opened fails by
propagating the extraction failure (there is no dedicated `ExtractionError`
type) and no cache entry is written; but a source that opens and yields
zero extractable characters does not fail — it is processed successfully
and a cache entry is written, because no empty-text check exists. -/
theorem c6_open_failure_vs_empty_source (pages : List Str) :
    processAnnualReport .unopenable none false = (.error .extractFailure, none) ∧
    processAnnualReport (.doc pages) none false =
      (.ok (mkProcessedData (pages.foldl (fun acc p => acc ++ p ++ [nlChar]) [])),
       some (.good (mkProcessedData (pages.foldl (fun acc p => acc ++ p ++ [nlChar]) [])))) :=
  ⟨rfl, rfl⟩

/-- Counterexample to C6 as stated: a zero-page source yields zero
extractable characters, yet processing succeeds and a cache entry is
written. -/
theorem c6_counterexample :
    (processAnnualReport (.doc []) none false).1 = .ok (mkProcessedData []) ∧
    (processAnnualReport (.doc []) none false).2 = some (.good (mkProcessedData [])) :=
  ⟨rfl, rfl⟩

/-- Claim C7 (corrected).  Provided the source file still exists (the
existence check precedes the cache lookup), a readable cache entry is
returned as-is with the cache unchanged, for every source content — the
document content is never read on a hit; and a corrupt cache entry is
recovered by reprocessing, returning exactly what a cache miss returns. -/
theorem c7_cache_hit_and_corrupt_recovery :
    (∀ (f : PdfFile) (v : ProcessedData), f ≠ PdfFile.missing →
        processAnnualReport f (some (.good v)) false = (.ok v, some (.good v))) ∧
    ∀ (f : PdfFile), (processAnnualReport f (some .corrupt) false).1 =
      (processAnnualReport f none false).1 := by
  constructor
  · intro f v hf
    cases f with
    | missing => exact absurd rfl hf
    | unopenable => rfl
    | doc pages => rfl
  · intro f
    cases f with
    | missing => rfl
    | unopenable => rfl
    | doc pages => rfl

/-- Witness for C7 at an existing, openable, zero-page source. -/
theorem c7_cache_hit_witness :
    processAnnualReport (.doc []) (some (.good (mkProcessedData []))) false =
      (.ok (mkProcessedData []), some (.good (mkProcessedData []))) ∧
    (processAnnualReport (.doc []) (some .corrupt) false).1 =
      (processAnnualReport (.doc []) none false).1 :=
  ⟨c7_cache_hit_and_corrupt_recovery.1 (.doc []) (mkProcessedData []) (by decide),
   c7_cache_hit_and_corrupt_recovery.2 (.doc [])⟩

/-- Counterexample to C7 as stated: with a readable cache entry present but
the source file missing, the call raises `FileNotFoundError` instead of
returning the deserialized cache entry. -/
theorem c7_counterexample :
    processAnnualReport .missing (some (.good (mkProcessedData []))) false =
      (.error .fileNotFound, some (.good (mkProcessedData []))) ∧
    (processAnnualReport .missing (some (.good (mkProcessedData []))) false).1 ≠
      .ok (mkProcessedData []) :=
  ⟨rfl, fun h => nomatch h⟩

/-- Claim C8 (corrected).  Within a section, chunk `start_pos` values are
strictly increasing (each seal advances `current_start` by one plus the
length of the triggering sentence); `end_pos` values need not increase. -/
theorem c8_start_pos_strictly_increasing (text : Str) (mct ot : Nat) (st : Str) :
    List.Pairwise (fun a b => a.startPos < b.startPos) (chunkText mct ot st text) :=
  chunkAux_start_pairwise mct ot st (splitIntoSentences text) [] 0 0

/-- Counterexample to C8 as stated: consecutive chunks with end offsets 43
and then 11 — `end_pos` is not strictly increasing. -/
theorem c8_counterexample :
    (chunkText 10 4 (("g").toList) c8Text).map TextChunk.endPos = [43, 11] ∧
    ¬ (43 < 11) := by
  decide

/-- Claim C9 (corrected).  Consecutive chunks share an overlap window of
the last `min(ceil(overlap_tokens / 4), word count)` words — the Python
slice start `-overlap_tokens//4` floor-divides a negative number, so the
window is the ceiling, not the floor, of `overlap_tokens / 4`. -/
theorem c9_overlap_window (text : Str) (mct ot : Nat) (st : Str) :
    List.Chain' (tailHeadShare ((ot + 3) / 4)) (chunkText mct ot st text) :=
  (chunkAux_overlap_chain mct ot st (splitIntoSentences text) [] 0 0).1

/-- Counterexample to C9 as stated: with `overlap_tokens = 5` the claimed
window size is `5 // 4 = 1`, but the leading word of chunk 1 is not the
last word of chunk 0 (the code seeds two words of overlap). -/
theorem c9_counterexample :
    (chunkText 3 5 (("g").toList) (("aaaa bbbb. cccccccccc. dd.").toList)).take 2 =
      [⟨("aaaa bbbb.").toList, 0, ("g").toList, 0, 10, 2, 2⟩,
       ⟨("aaaa bbbb. cccccccccc.").toList, 1, ("g").toList, 12, 34, 5, 3⟩] ∧
    ¬ tailHeadShare (5 / 4)
        ⟨("aaaa bbbb.").toList, 0, ("g").toList, 0, 10, 2, 2⟩
        ⟨("aaaa bbbb. cccccccccc.").toList, 1, ("g").toList, 12, 34, 5, 3⟩ := by
  decide


/-- Claim C2 (corrected).  In `create_context_for_llm`, a chunk whose token
estimate would push the running total over `max_context_tokens` stops
assembly only within the current section type: the chunks appended for a
type form exactly the greedy prefix up to the first overflowing chunk and
the rest of that type's list is discarded, but iteration continues with
the next selected section type, whose chunks may still be appended (the
counterexample exhibits one). -/
theorem c2_per_type_greedy_prefix (maxCtx : Nat) (t : Str) :
    ∀ (l : List TextChunk) (parts : List Str) (cur : Nat),
      ∃ k, k ≤ l.length ∧
        addChunks maxCtx t l (parts, cur) =
          (parts ++ (l.take k).map (fmtChunkPart t),
           cur + ((l.take k).map TextChunk.tokenCount).sum) ∧
        (∀ j (hj : j < l.length), j < k →
          cur + ((l.take j).map TextChunk.tokenCount).sum +
            (l.get ⟨j, hj⟩).tokenCount ≤ maxCtx) ∧
        (∀ (hk : k < l.length),
          cur + ((l.take k).map TextChunk.tokenCount).sum +
            (l.get ⟨k, hk⟩).tokenCount > maxCtx) := by
  intro l
  induction l with
  | nil =>
    intro parts cur
    refine ⟨0, Nat.le_refl 0, by simp [addChunks], ?_, ?_⟩
    · intro j hj _
      exact absurd hj (Nat.not_lt_zero j)
    · intro hk
      exact absurd hk (Nat.lt_irrefl 0)
  | cons c rest ih =>
    intro parts cur
    by_cases h : cur + c.tokenCount > maxCtx
    · refine ⟨0, Nat.zero_le _, ?_, ?_, ?_⟩
      · have h1 : addChunks maxCtx t (c :: rest) (parts, cur) = (parts, cur) := by
          show (if cur + c.tokenCount > maxCtx then (parts, cur)
            else addChunks maxCtx t rest
              (parts ++ [fmtChunkPart t c], cur + c.tokenCount)) = (parts, cur)
          rw [if_pos h]
        rw [h1]
        simp
      · intro j hj hj0
        exact absurd hj0 (Nat.not_lt_zero j)
      · intro hk
        have hget : (c :: rest).get ⟨0, hk⟩ = c := rfl
        rw [hget]
        simpa using h
    · obtain ⟨k, hkle, heq, hin, hstop⟩ := ih (parts ++ [fmtChunkPart t c]) (cur + c.tokenCount)
      refine ⟨k + 1, Nat.succ_le_succ hkle, ?_, ?_, ?_⟩
      · have h1 : addChunks maxCtx t (c :: rest) (parts, cur) =
            addChunks maxCtx t rest (parts ++ [fmtChunkPart t c], cur + c.tokenCount) := by
          show (if cur + c.tokenCount > maxCtx then (parts, cur)
            else addChunks maxCtx t rest
              (parts ++ [fmtChunkPart t c], cur + c.tokenCount)) = _
          rw [if_neg h]
        rw [h1, heq]
        rw [List.take_succ_cons, List.map_cons, List.map_cons, List.sum_cons]
        rw [Prod.ext_iff]
        constructor
        · simp
        · simp [Nat.add_assoc]
      · intro j hj hjk
        cases j with
        | zero =>
          have hget : (c :: rest).get ⟨0, hj⟩ = c := rfl
          rw [hget]
          simpa using Nat.le_of_not_lt h
        | succ j' =>
          have hj'' : j' < rest.length := Nat.lt_of_succ_lt_succ hj
          have hrec := hin j' hj'' (Nat.lt_of_succ_lt_succ hjk)
          have hget : (c :: rest).get ⟨j' + 1, hj⟩ = rest.get ⟨j', hj''⟩ := rfl
          rw [hget, List.take_succ_cons, List.map_cons, List.sum_cons]
          omega
      · intro hk
        have hk' : k < rest.length := Nat.lt_of_succ_lt_succ hk
        have hrec := hstop hk'
        have hget : (c :: rest).get ⟨k + 1, hk⟩ = rest.get ⟨k, hk'⟩ := rfl
        rw [hget, List.take_succ_cons, List.map_cons, List.sum_cons]
        omega

/-- Witness for C2: the characterization instantiated at a concrete
one-chunk list and budget. -/
theorem c2_per_type_greedy_prefix_witness :
    ∃ k, k ≤ ([exChunkHi] : List TextChunk).length ∧
      addChunks 5 (("g").toList) [exChunkHi] ([], 0) =
        ([] ++ (([exChunkHi] : List TextChunk).take k).map (fmtChunkPart (("g").toList)),
         0 + ((([exChunkHi] : List TextChunk).take k).map TextChunk.tokenCount).sum) ∧
      (∀ j (hj : j < ([exChunkHi] : List TextChunk).length), j < k →
        0 + ((([exChunkHi] : List TextChunk).take j).map TextChunk.tokenCount).sum +
          (([exChunkHi] : List TextChunk).get ⟨j, hj⟩).tokenCount ≤ 5) ∧
      (∀ (hk : k < ([exChunkHi] : List TextChunk).length),
        0 + ((([exChunkHi] : List TextChunk).take k).map TextChunk.tokenCount).sum +
          (([exChunkHi] : List TextChunk).get ⟨k, hk⟩).tokenCount > 5) :=
  c2_per_type_greedy_prefix 5 (("g").toList) [exChunkHi] [] 0

/-- Counterexample to C2 as stated: the sole `financial_statements` chunk
(7 estimated tokens) would exceed the 5-token budget and is skipped, yet
the later `risk_factors` chunk is still appended — assembly does not stop
at the first overflowing chunk. -/
theorem c2_counterexample :
    createContextForLLM 1000 100 pdC2 (("revenue risk").toList) 5 =
      ("\nRISK_FACTORS:\nab.").toList ∧
    (extractKeySections 1000 100 pdC2.sections).map
        (fun p => (p.1, p.2.map TextChunk.tokenCount)) =
      [(("financial_statements").toList, [7]), (("risk_factors").toList, [0])] := by
  decide

/-- Claim C5 (corrected).  `_identify_relevant_sections` selects, from the
top-3 positive-scoring section types (stable descending sort, declaration
order on ties), only those present in the chunk map — an absent top-3 type
is dropped, not replaced — and then appends `management_discussion` when
it is present in the chunk map and not already selected; every selected
type maps to its original chunk list. -/
theorem c5_selection_characterization (q : Str) (cm : List (Str × List TextChunk)) :
    identifyRelevantSections q cm =
      (((((sortByScoreDesc (scoredSections q)).take 3).map Prod.fst).filter
          (fun t => (alookup t cm).isSome)) ++
        (if (alookup mdKey cm).isSome ∧
            mdKey ∉ ((((sortByScoreDesc (scoredSections q)).take 3).map Prod.fst).filter
              (fun t => (alookup t cm).isSome)) then [mdKey] else [])).map
        (fun t => (t, (alookup t cm).getD [])) := by
  have hbase : ((sortByScoreDesc (scoredSections q)).take 3).foldl
      (fun acc p => match alookup p.1 cm with
        | some chunks => acc ++ [(p.1, chunks)]
        | none => acc) [] =
      ((((sortByScoreDesc (scoredSections q)).take 3).map Prod.fst).filter
        (fun t => (alookup t cm).isSome)).map (fun t => (t, (alookup t cm).getD [])) := by
    rw [idrs_foldl cm, List.nil_append, List.filter_map, List.map_map]
    rfl
  cases halo : alookup mdKey cm with
  | none =>
    simp only [identifyRelevantSections, halo]
    rw [hbase]
    simp [halo]
  | some chunks =>
    simp only [identifyRelevantSections, halo]
    rw [hbase]
    by_cases hmem : mdKey ∈ ((((sortByScoreDesc (scoredSections q)).take 3).map Prod.fst).filter
        (fun t => (alookup t cm).isSome))
    · have hlk : alookup mdKey
          (((((sortByScoreDesc (scoredSections q)).take 3).map Prod.fst).filter
            (fun t => (alookup t cm).isSome)).map
              (fun t => (t, (alookup t cm).getD []))) ≠ none := by
        intro hn
        exact (alookup_map_eq_none (fun t => (alookup t cm).getD []) _ mdKey).mp hn hmem
      have hcond : ¬ (((some chunks).isSome : Prop) ∧
          mdKey ∉ ((((sortByScoreDesc (scoredSections q)).take 3).map Prod.fst).filter
            (fun t => (alookup t cm).isSome))) := fun hc => hc.2 hmem
      rw [if_neg (by simpa [Option.isNone_iff_eq_none] using hlk), if_neg hcond]
      simp
    · have hlk : alookup mdKey
          (((((sortByScoreDesc (scoredSections q)).take 3).map Prod.fst).filter
            (fun t => (alookup t cm).isSome)).map
              (fun t => (t, (alookup t cm).getD []))) = none :=
        (alookup_map_eq_none (fun t => (alookup t cm).getD []) _ mdKey).mpr hmem
      rw [List.map_take] at hlk
      have hcond : ((some chunks).isSome : Prop) ∧
          mdKey ∉ ((((sortByScoreDesc (scoredSections q)).take 3).map Prod.fst).filter
            (fun t => (alookup t cm).isSome)) := ⟨rfl, hmem⟩
      rw [if_pos (by simp [hlk]), if_pos hcond]
      simp [halo, List.map_append]

/-- Counterexample to C5 as stated: all four scored types tie at score 1,
so the top-3 are `financial_statements`, `risk_factors`, `esg`; but
`risk_factors` is absent from the chunk map and the selection is only
`[financial_statements, esg]` — not exactly the top-3. -/
theorem c5_counterexample :
    (((sortByScoreDesc (scoredSections
        (("revenue risk environmental business").toList))).take 3).map Prod.fst =
      [("financial_statements").toList, ("risk_factors").toList, ("esg").toList]) ∧
    ((identifyRelevantSections (("revenue risk environmental business").toList) cmC5).map
        Prod.fst =
      [("financial_statements").toList, ("esg").toList]) := by
  decide

/-- Claim C10 (confirmed).  `clean_text` output contains no newline (every
whitespace run is collapsed to a single space and no later stage introduces
one), so the text handed to `find_sections` splits into exactly one line
and every detected section record is `(0, 1, cleaned text)`: start line 0,
end line 1 (the whole single-line list), text equal to the cleaned text. -/
theorem c10_clean_text_single_line (raw : Str) :
    nlChar ∉ cleanText raw ∧
    (splitOnNl (cleanText raw)).length = 1 ∧
    ∀ (kws : List Str) (sec : Nat × Nat × Str),
      sec ∈ findSectionsFor (splitOnNl (cleanText raw)) kws →
      sec = (0, 1, cleanText raw) := by
  have hnl := cleanText_no_nl raw
  have hsplit : splitOnNl (cleanText raw) = [cleanText raw] := by
    rw [splitOnNl, splitOnChar,
      splitOnCharAux_no_sep nlChar (cleanText raw) []
        (fun c hc he => hnl (he ▸ hc))]
    simp
  refine ⟨hnl, by rw [hsplit]; rfl, ?_⟩
  intro kws sec hsec
  rw [hsplit] at hsec
  have h1 : findSectionsFor [cleanText raw] kws =
      scanKeywords [cleanText raw] 0 (pyStrip (lowerStr (cleanText raw))) kws := rfl
  rw [h1, scanKeywords_eq] at hsec
  have hrec : sectionRecordAt [cleanText raw] 0 = (0, 1, cleanText raw) := rfl
  by_cases hany : (kws.any fun kw => containsSubstr (pyStrip (lowerStr (cleanText raw))) kw) = true
  · rw [if_pos hany, hrec] at hsec
    simpa using hsec
  · rw [if_neg (by simpa using hany)] at hsec
    simp at hsec

/-- Witness for C10 at the text `"risk factors x"`, which survives cleaning
unchanged and matches a `risk_factors` keyword on the single line. -/
theorem c10_clean_text_single_line_witness :
    ((0, 1, cleanText (("risk factors x").toList)) ∈
      findSectionsFor (splitOnNl (cleanText (("risk factors x").toList))) riskFactorsKws) ∧
    ((0, 1, cleanText (("risk factors x").toList)) : Nat × Nat × Str) =
      (0, 1, cleanText (("risk factors x").toList)) :=
  ⟨by decide,
   (c10_clean_text_single_line (("risk factors x").toList)).2.2 riskFactorsKws
     (0, 1, cleanText (("risk factors x").toList)) (by decide)⟩

end FinSight
